import Mathlib

/-!
A verification development for the SASEUL pool client
(`pool_miner.py`, `cpu_miner.py`, `gpu_pool_miner.py`).

The cryptographic digest (`hashlib.sha256(...).hexdigest()`) is abstracted as
a function argument `hash : String → String`; JSON parsing and UTF-8 decoding
of a received line are abstracted as a function
`parse : List Char → Except ParseErr μ` whose two error constructors mirror
the two distinct Python exceptions (`UnicodeDecodeError` raised by
`bytes.decode()` and `json.JSONDecodeError` raised by `json.loads`).
Everything else is translated directly from the source.  Machine integers do
not occur: Python integers are unbounded, so `Nat`/`Int` model them exactly.
Bytes of the network streams are modelled as `Char`s; only the newline byte
and ASCII whitespace bytes are ever inspected individually by the code.
-/

namespace PoolClient

/-! ### Hexadecimal rendering, as Python `format(n, 'x')` produces it -/

/-- The sixteen lowercase hexadecimal digit characters. -/
def hexDigits : List Char :=
  ['0', '1', '2', '3', '4', '5', '6', '7', '8', '9']
    ++ ['a', 'b', 'c', 'd', 'e', 'f']

def hexChar (n : Nat) : Char := hexDigits.getD n '*'

/-- Digits of `n` in base 16, most significant first, appended before `acc`.
The fuel argument only forces termination; `toHexList` supplies `n + 1`,
which is more than the number of divisions by 16 ever performed. -/
def toHexAux : Nat → Nat → List Char → List Char
  | 0, _, acc => acc
  | fuel + 1, n, acc =>
    if n / 16 = 0 then hexChar (n % 16) :: acc
    else toHexAux fuel (n / 16) (hexChar (n % 16) :: acc)

def toHexList (n : Nat) : List Char := toHexAux (n + 1) n []

/-- Python `format(n, 'x')` for a natural number: lowercase hex, no padding. -/
def toHex (n : Nat) : String := String.mk (toHexList n)

/-- Zero padding on the left to width `w`, as Python `format(n, '0Wx')`
applies to the digits of a nonnegative number. -/
def zfill (w : Nat) (s : String) : String :=
  String.mk (List.replicate (w - s.length) '0') ++ s

/-- Python `format(n, '0Wx')` for a signed integer: a negative value keeps
its minus sign and the zero padding counts the sign into the width. -/
def pyHexPad (w : Nat) (n : Int) : String :=
  if n < 0 then "-" ++ zfill (w - 1) (toHex n.natAbs) else zfill w (toHex n.toNat)

/-- Numeric value of one lowercase hexadecimal digit character. -/
def hexDigitVal (c : Char) : Nat :=
  if c ≤ '9' then c.toNat - 48 else c.toNat - 87

/-- Value of a big-endian string of hexadecimal digit characters. -/
def hexValList : List Char → Nat
  | [] => 0
  | c :: cs => hexDigitVal c * 16 ^ cs.length + hexValList cs

/-- A hexadecimal string read as an unsigned big integer. -/
def hexVal (s : String) : Nat := hexValList s.data

/-- Python string `<=`: lexicographic comparison by code point, a strict
prefix comparing below the longer string. -/
def pyLe : List Char → List Char → Bool
  | [], _ => true
  | _ :: _, [] => false
  | a :: xs, b :: ys => if a = b then pyLe xs ys else decide (a < b)

/-! ### Crypto helpers (`pool_miner.py` lines 44-95) -/

def HASH_BYTES : Nat := 32

def HASH_SIZE : Nat := HASH_BYTES * 2

def HEX_TIME_SIZE : Nat := 14

/-- `HASH_COUNT = (1 << (HASH_BYTES * 8)) - 1`. -/
def HASH_COUNT : Nat := 2 ^ (HASH_BYTES * 8) - 1

/-- One pairing pass of `merkle_root`'s while-loop body: adjacent elements
are combined with `hash(layer[i] + layer[i+1])`, an unpaired final element
is carried over unchanged. -/
def merkleStep (hash : String → String) : List String → List String
  | [] => []
  | [x] => [x]
  | a :: b :: rest => hash (a ++ b) :: merkleStep hash rest

/-- `(merkleStep hash l).length = (l.length + 1) / 2`; stated as a `def` so
the recursion of `merkleLoop` below can refer to it. -/
def merkleStep_length (hash : String → String) :
    ∀ l : List String, (merkleStep hash l).length = (l.length + 1) / 2
  | [] => by simp [merkleStep]
  | [_] => by simp [merkleStep]
  | _ :: _ :: rest => by
    have ih := merkleStep_length hash rest
    simp only [merkleStep, List.length_cons, ih]
    omega

/-- The `while len(layer) > 1` loop of `merkle_root`, returning `layer[0]`. -/
def merkleLoop (hash : String → String) (layer : List String) : String :=
  if 1 < layer.length then merkleLoop hash (merkleStep hash layer)
  else layer.headD ""
termination_by layer.length
decreasing_by
  have := merkleStep_length hash layer
  omega

/-- `merkle_root` from `pool_miner.py` lines 58-70 (identical in
`cpu_miner.py`): items restricted to strings, the digest abstracted. -/
def merkle_root (hash : String → String) (arr : List String) : String :=
  if arr = [] then hash ""
  else merkleLoop hash (arr.map hash)

/-- `hex_time` : `f'{utime:014x}'`. -/
def hex_time (utime : Nat) : String := zfill HEX_TIME_SIZE (toHex utime)

/-- `time_hash(obj, timestamp) = hex_time(timestamp) + sha256(obj)`. -/
def time_hash (hash : String → String) (obj : String) (timestamp : Nat) : String :=
  hex_time timestamp ++ hash obj

/-- The block hash submitted on a `found` result (`pool_miner.py` lines
584-587): `br = sha256(pow_left + nonce); bh = time_hash(br, timestamp)`. -/
def submitted_blockhash (hash : String → String) (pow_left nonce : String)
    (timestamp : Nat) : String :=
  let br := hash (pow_left ++ nonce)
  time_hash hash br timestamp

/-- The block hash exactly as claim C4 words it: the 14-digit hex timestamp
concatenated with the hash of `pow_left ++ nonce` (a single digest).  Kept
separate from `submitted_blockhash` for the refinement comparison. -/
def claimed_blockhash (hash : String → String) (pow_left nonce : String)
    (timestamp : Nat) : String :=
  hex_time timestamp ++ hash (pow_left ++ nonce)

/-- `hash_limit` from `pool_miner.py` lines 93-95:
`d = max(int(diff), 1); return f'{HASH_COUNT // d:0{HASH_SIZE}x}'`. -/
def hash_limit (diff : Int) : String :=
  let d := max diff 1
  zfill HASH_SIZE (toHex (HASH_COUNT / d.toNat))

/-- `hash_limit` from `gpu_pool_miner.py` lines 72-76:
`d = int(difficulty); if d == 0: return '0' * 64; return format(HASH_COUNT // d, '064x')`.
Python `//` is floor division, hence `Int.fdiv`. -/
def gpu_hash_limit (difficulty : Int) : String :=
  if difficulty = 0 then String.mk (List.replicate 64 '0')
  else pyHexPad 64 (Int.fdiv (HASH_COUNT : Int) difficulty)

/-! ### Share/block classification on a `found` result
(`pool_miner.py` lines 580-607) -/

structure Counters where
  shares : Nat
  blocks : Nat

/-- The counter updates of the `result == 'found'` branch: `br` is the
digest `sha256(pow_left + nonce)` computed on line 586;
`block_target = hash_limit(job['difficulty'])`; `is_block = br <= block_target`
(a Python string comparison); blocks are bumped only when `is_block`,
the share counter always. -/
def handle_found (difficulty : Int) (br : String) (c : Counters) : Counters :=
  let block_target := hash_limit difficulty
  let is_block := pyLe br.data block_target.data
  { shares := c.shares + 1
    blocks := if is_block then c.blocks + 1 else c.blocks }

/-! ### Reconnect backoff (`pool_miner.py` lines 459-474)

`reconnect_delay` is a Python float; every value the recurrence
`min(delay * 1.5, 60)` reaches from 5 is a dyadic rational with a short
mantissa, so binary64 arithmetic is exact on it and `ℚ` models it exactly. -/

inductive ConnEvent where
  | failure
  | success

/-- `reconnect_delay = min(reconnect_delay * 1.5, MAX_RECONNECT_DELAY)`. -/
def next_delay (d : ℚ) : ℚ := min (d * 1.5) 60

/-- The delay waited before the `n`-th consecutive failed reconnect when
starting from `RECONNECT_DELAY = 5`: the variable is updated after each
failed attempt and read before the next one. -/
def delays : Nat → ℚ
  | 0 => 5
  | n + 1 => next_delay (delays n)

/-- One transition of the `reconnect_delay` variable: a failed connect
applies the backoff update, a successful connect resets to the base 5
(`reconnect_delay = RECONNECT_DELAY` on line 474). -/
def step_delay (d : ℚ) : ConnEvent → ℚ
  | .failure => next_delay d
  | .success => 5

/-! ### Job Store (`pool_miner.py` lines 401-406 and 428-430)

`_handle_notify` assigns `self.current_job = params` under `self.job_lock`;
`get_job` returns `self.current_job.copy()` (or `None`) under the same lock.
Both critical sections are free of blocking calls, so every execution is an
interleaving of atomic `replace` and `snapshot` operations; a trace is the
lock-order list of the jobs passed to `replace`. -/

/-- The store contents after a trace of `replace` calls: each call
overwrites the single cell wholesale. -/
def run_replaces {α : Type} (init : Option α) (js : List α) : Option α :=
  js.foldl (fun _ j => some j) init

/-- `get_job`'s snapshot: the current cell value (the Python `.copy()` is
modelled by value semantics). -/
def get_job {α : Type} (store : Option α) : Option α := store

/-! ### Frame codec (`pool_miner.py` lines 276-328, the buffer-draining
loops of `_recv_lines`) -/

/-- The two distinct exceptions `json.loads(line.decode())` can raise:
`except json.JSONDecodeError: pass` catches only the second one. -/
inductive ParseErr where
  | unicode
  | jsonDecode
deriving DecidableEq

/-- Split a buffer at its first newline: `buf.split(b'\n', 1)` when a
newline is present. -/
def splitNL : List Char → Option (List Char × List Char)
  | [] => none
  | c :: cs =>
    if c = '\n' then some ([], cs)
    else
      match splitNL cs with
      | none => none
      | some (l, r) => some (c :: l, r)

/-- Python `line.strip()` falsiness for a line already free of newlines:
every byte is ASCII whitespace. -/
def isBlank (l : List Char) : Bool :=
  l.all fun c => c ∈ [' ', '\t', '\r', '\x0b', '\x0c']

/-- The draining loop `while b'\n' in self.buf: ...` of `_recv_lines`,
processing one buffer: complete lines are split off; a line that strips to
nothing is skipped; otherwise `json.loads(line.decode())` is attempted,
a `jsonDecode` failure is swallowed (`except json.JSONDecodeError: pass`),
a `unicode` failure propagates as an uncaught exception (`Except.error ()`),
which also discards the messages already collected.  The first component
`cur` holds the bytes read so far of the line in progress (reversed); at
the end of input the line in progress is the retained partial buffer. -/
def recv_drain_aux {μ : Type} (parse : List Char → Except ParseErr μ)
    (cur : List Char) : List Char → Except Unit (List μ × List Char)
  | [] => .ok ([], cur.reverse)
  | c :: cs =>
    if c = '\n' then
      if isBlank cur.reverse then recv_drain_aux parse [] cs
      else
        match parse cur.reverse with
        | .ok m =>
          match recv_drain_aux parse [] cs with
          | .ok (ms, lo) => .ok (m :: ms, lo)
          | .error e => .error e
        | .error .jsonDecode => recv_drain_aux parse [] cs
        | .error .unicode => .error ()
    else recv_drain_aux parse (c :: cur) cs

/-- Messages and leftover bytes extracted from one buffer. -/
def recv_drain {μ : Type} (parse : List Char → Except ParseErr μ)
    (buf : List Char) : Except Unit (List μ × List Char) :=
  recv_drain_aux parse [] buf

/-! ### Accelerator client (`gpu_mine_round`, `pool_miner.py` lines 101-138)
and the mining loop's reaction to an unavailable accelerator
(lines 542-545) -/

/-- The observable behaviour of one IPC exchange, as the shallow embedding
of the socket: the listed failures are the exceptions named in the two
`except` clauses and the closed-stream path, `response bytes` is the data
read before the peer closes. -/
inductive IPCOutcome where
  | connectFail
  | sendFail
  | timeout
  | sockErr
  | closed
  | response (bytes : List Char)

/-- `gpu_mine_round`: connect failures return `None` (lines 108-110);
send/timeout/socket errors are caught by
`except (socket.timeout, socket.error, json.JSONDecodeError, OSError)` and
return `None`; a stream that closes before a newline returns `None`
(`if not chunk: return None`); the first complete line is given to
`json.loads(line.decode())`, whose `jsonDecode` failure is caught
(`None`) while a `unicode` failure is an uncaught exception. -/
def gpu_mine_round_model {μ : Type} (parse : List Char → Except ParseErr μ) :
    IPCOutcome → Except Unit (Option μ)
  | .connectFail => .ok none
  | .sendFail => .ok none
  | .timeout => .ok none
  | .sockErr => .ok none
  | .closed => .ok none
  | .response bs =>
    match splitNL bs with
    | none => .ok none
    | some (line, _) =>
      match parse line with
      | .ok m => .ok (some m)
      | .error .jsonDecode => .ok none
      | .error .unicode => .error ()

/-- The mining-loop state touched by the `resp is None` branch: the job
store cell and the log of sleeps performed. -/
structure MineLoopState (α : Type) where
  store : Option α
  sleeps : List Nat

/-- `if resp is None: log.warning(...); time.sleep(2); continue`
(`pool_miner.py` lines 542-545): a two-second sleep is recorded and
nothing else changes. -/
def on_unavailable {α : Type} (s : MineLoopState α) : MineLoopState α :=
  { s with sleeps := 2 :: s.sleeps }

/-! ## Support lemmas: hexadecimal rendering -/

theorem hexDigitVal_hexChar {d : Nat} (h : d < 16) : hexDigitVal (hexChar d) = d := by
  interval_cases d <;> decide

theorem hexChar_mem {d : Nat} (h : d < 16) : hexChar d ∈ hexDigits := by
  interval_cases d <;> decide

theorem hexDigitVal_lt_16 {c : Char} (h : c ∈ hexDigits) : hexDigitVal c < 16 :=
  (by decide : ∀ c ∈ hexDigits, hexDigitVal c < 16) c h

theorem toHexAux_val : ∀ (fuel n : Nat) (acc : List Char), n < fuel →
    hexValList (toHexAux fuel n acc) = n * 16 ^ acc.length + hexValList acc
  | 0, _, _, hf => absurd hf (by omega)
  | fuel + 1, n, acc, hf => by
    simp only [toHexAux]
    by_cases h : n / 16 = 0
    · rw [if_pos h]
      have hn : n < 16 := by omega
      rw [Nat.mod_eq_of_lt hn]
      simp [hexValList, hexDigitVal_hexChar hn]
    · rw [if_neg h]
      have h16 : 16 ≤ n := by
        by_contra hc
        push_neg at hc
        exact h (Nat.div_eq_of_lt hc)
      have hrec : n / 16 < fuel := by
        have h1 : n / 16 < n := Nat.div_lt_self (by omega) (by norm_num)
        omega
      rw [toHexAux_val fuel (n / 16) _ hrec]
      simp only [List.length_cons, hexValList,
        hexDigitVal_hexChar (Nat.mod_lt n (by norm_num))]
      calc n / 16 * 16 ^ (acc.length + 1) + (n % 16 * 16 ^ acc.length + hexValList acc)
          = (16 * (n / 16) + n % 16) * 16 ^ acc.length + hexValList acc := by
            rw [pow_succ]; ring
        _ = n * 16 ^ acc.length + hexValList acc := by rw [Nat.div_add_mod]

theorem toHexAux_len : ∀ (fuel n k : Nat) (acc : List Char), n < fuel → n < 16 ^ k →
    1 ≤ k → (toHexAux fuel n acc).length ≤ k + acc.length
  | 0, _, _, _, hf, _, _ => absurd hf (by omega)
  | fuel + 1, n, k, acc, hf, hk, h1 => by
    simp only [toHexAux]
    by_cases h : n / 16 = 0
    · rw [if_pos h]
      simp only [List.length_cons]
      omega
    · rw [if_neg h]
      have h16 : 16 ≤ n := by
        by_contra hc
        push_neg at hc
        exact h (Nat.div_eq_of_lt hc)
      have hk2 : 2 ≤ k := by
        by_contra hc
        push_neg at hc
        have hk1 : k = 1 := by omega
        subst hk1
        simp at hk
        omega
      have hdiv : n / 16 < 16 ^ (k - 1) := by
        apply Nat.div_lt_of_lt_mul
        have hpow : 16 * 16 ^ (k - 1) = 16 ^ k := by
          rw [← pow_succ']
          congr 1
          omega
        omega
      have hrec : n / 16 < fuel := by
        have h1 : n / 16 < n := Nat.div_lt_self (by omega) (by norm_num)
        omega
      have ih := toHexAux_len fuel (n / 16) (k - 1) (hexChar (n % 16) :: acc) hrec hdiv
        (by omega)
      simp only [List.length_cons] at ih
      omega

theorem toHexAux_mem : ∀ (fuel n : Nat) (acc : List Char),
    (∀ c ∈ acc, c ∈ hexDigits) → ∀ c ∈ toHexAux fuel n acc, c ∈ hexDigits
  | 0, _, _, hacc => hacc
  | fuel + 1, n, acc, hacc => by
    have hacc' : ∀ c ∈ hexChar (n % 16) :: acc, c ∈ hexDigits := by
      intro c hc
      rcases List.mem_cons.mp hc with h | h
      · exact h ▸ hexChar_mem (Nat.mod_lt n (by norm_num))
      · exact hacc c h
    simp only [toHexAux]
    by_cases h : n / 16 = 0
    · rw [if_pos h]; exact hacc'
    · rw [if_neg h]; exact toHexAux_mem fuel (n / 16) _ hacc'

theorem toHexList_val (n : Nat) : hexValList (toHexList n) = n := by
  have h := toHexAux_val (n + 1) n [] (by omega)
  simpa [toHexList, hexValList] using h

theorem hexVal_toHex (n : Nat) : hexVal (toHex n) = n := by
  simpa [hexVal, toHex] using toHexList_val n

theorem toHexList_length_le {n k : Nat} (hk : n < 16 ^ k) (h1 : 1 ≤ k) :
    (toHexList n).length ≤ k := by
  have h := toHexAux_len (n + 1) n k [] (by omega) hk h1
  simpa [toHexList] using h

theorem toHexList_mem (n : Nat) : ∀ c ∈ toHexList n, c ∈ hexDigits :=
  toHexAux_mem (n + 1) n [] (by simp)

theorem zfill_data (w : Nat) (s : String) :
    (zfill w s).data = List.replicate (w - s.length) '0' ++ s.data := rfl

theorem string_length_eq (s : String) : s.length = s.data.length := rfl

theorem zfill_length {w : Nat} (s : String) (h : s.length ≤ w) :
    (zfill w s).length = w := by
  rw [string_length_eq] at h
  show (List.replicate (w - s.length) '0' ++ s.data).length = w
  rw [List.length_append, List.length_replicate, string_length_eq]
  omega

theorem hexValList_replicate_zero (k : Nat) (l : List Char) :
    hexValList (List.replicate k '0' ++ l) = hexValList l := by
  induction k with
  | zero => simp
  | succ k ih =>
    have h0 : hexDigitVal '0' = 0 := rfl
    simp [List.replicate_succ, hexValList, ih, h0]

theorem hexVal_zfill (w : Nat) (s : String) : hexVal (zfill w s) = hexVal s := by
  simp [hexVal, zfill_data, hexValList_replicate_zero]

/-! ## Support lemmas: the difficulty → target function -/

theorem HASH_COUNT_lt : HASH_COUNT < 16 ^ 64 := by
  norm_num [HASH_COUNT, HASH_BYTES]

theorem toHex_target_length_le (d : Int) :
    (toHex (HASH_COUNT / (max d 1).toNat)).length ≤ 64 := by
  have hq : HASH_COUNT / (max d 1).toNat < 16 ^ 64 :=
    lt_of_le_of_lt (Nat.div_le_self _ _) HASH_COUNT_lt
  simpa [toHex, string_length_eq] using toHexList_length_le hq (by norm_num)

theorem hash_limit_length (d : Int) : (hash_limit d).length = 64 := by
  have h : hash_limit d = zfill 64 (toHex (HASH_COUNT / (max d 1).toNat)) := rfl
  rw [h]
  exact zfill_length _ (toHex_target_length_le d)

theorem hexVal_hash_limit (d : Int) :
    hexVal (hash_limit d) = HASH_COUNT / (max d 1).toNat := by
  have h : hash_limit d = zfill 64 (toHex (HASH_COUNT / (max d 1).toNat)) := rfl
  rw [h, hexVal_zfill, hexVal_toHex]

theorem hash_limit_mem (d : Int) : ∀ c ∈ (hash_limit d).data, c ∈ hexDigits := by
  intro c hc
  have h : hash_limit d = zfill 64 (toHex (HASH_COUNT / (max d 1).toNat)) := rfl
  rw [h, zfill_data] at hc
  rcases List.mem_append.mp hc with h1 | h1
  · rcases List.eq_of_mem_replicate h1 with rfl
    decide
  · exact toHexList_mem _ c h1

theorem pyHexPad_natCast (w n : Nat) : pyHexPad w ((n : Nat) : Int) = zfill w (toHex n) := by
  rw [pyHexPad, if_neg (by omega), Int.toNat_natCast]

theorem gpu_hash_limit_of_pos {d : Int} (hd : 1 ≤ d) :
    gpu_hash_limit d = hash_limit d := by
  obtain ⟨m, rfl⟩ : ∃ m : Nat, d = (m : Int) :=
    ⟨d.toNat, (Int.toNat_of_nonneg (by omega)).symm⟩
  have hm : 1 ≤ m := by exact_mod_cast hd
  have hne : (m : Int) ≠ 0 := by exact_mod_cast (by omega : m ≠ 0)
  rw [gpu_hash_limit, if_neg hne]
  have hfd : Int.fdiv (HASH_COUNT : Int) (m : Int) = ((HASH_COUNT / m : Nat) : Int) :=
    (Int.ofNat_fdiv HASH_COUNT m).symm
  rw [hfd, pyHexPad_natCast]
  have hmax : (max (m : Int) 1).toNat = m := by omega
  have h : hash_limit (m : Int) = zfill 64 (toHex (HASH_COUNT / (max (m : Int) 1).toNat)) := rfl
  rw [h, hmax]

/-! ## Claim C2 -/

/-- C2 (amended): `pool_miner.py`'s `hash_limit` returns, for every integer
difficulty, the string of exactly 64 lowercase hexadecimal digits whose value
is `(2^256 - 1) div max(difficulty, 1)`; `gpu_pool_miner.py`'s `hash_limit`
agrees with it for every difficulty ≥ 1 (at difficulty 0 it returns 64 zero
digits instead, refuting the claim as stated). -/
theorem C2_hash_limit_target (d : Int) :
    ((hash_limit d).length = 64 ∧ (∀ c ∈ (hash_limit d).data, c ∈ hexDigits) ∧
      hexVal (hash_limit d) = (2 ^ 256 - 1) / (max d 1).toNat) ∧
    (1 ≤ d → gpu_hash_limit d = hash_limit d) :=
  ⟨⟨hash_limit_length d, hash_limit_mem d, hexVal_hash_limit d⟩,
    fun hd => gpu_hash_limit_of_pos hd⟩

/-- Witness for C2 at difficulty 7. -/
theorem C2_hash_limit_target_witness :
    (1 : Int) ≤ 7 ∧ gpu_hash_limit 7 = hash_limit 7 :=
  ⟨by norm_num, (C2_hash_limit_target 7).2 (by norm_num)⟩

/-- Counterexample to C2 as stated: at difficulty 0, `gpu_pool_miner.py`'s
`hash_limit` returns 64 zero digits, not the 64-digit rendering of
`(2^256 - 1) div max(0, 1) = 2^256 - 1`. -/
theorem C2_hash_limit_target_counterexample :
    gpu_hash_limit 0 = String.mk (List.replicate 64 '0') ∧
    hexVal (gpu_hash_limit 0) ≠ (2 ^ 256 - 1) / (max (0 : Int) 1).toNat := by
  constructor
  · rfl
  · decide

/-! ## Claim C3 -/

/-- C3: the target is monotonically non-increasing in the difficulty, and
`hash_limit 1` is the maximal 256-bit digest, 64 hex digits `f`. -/
theorem C3_hash_limit_monotone (d1 d2 : Int) (h : d1 ≤ d2) :
    hexVal (hash_limit d2) ≤ hexVal (hash_limit d1) ∧
    hash_limit 1 = String.mk (List.replicate 64 'f') := by
  constructor
  · rw [hexVal_hash_limit, hexVal_hash_limit]
    have hmax : (max d1 1).toNat ≤ (max d2 1).toNat := by omega
    exact Nat.div_le_div_left hmax (by omega)
  · decide

/-- Witness for C3 at difficulties 2 ≤ 3. -/
theorem C3_hash_limit_monotone_witness :
    (2 : Int) ≤ 3 ∧ (hexVal (hash_limit 3) ≤ hexVal (hash_limit 2) ∧
      hash_limit 1 = String.mk (List.replicate 64 'f')) :=
  ⟨by norm_num, C3_hash_limit_monotone 2 3 (by norm_num)⟩

/-! ## Claim C1 -/

/-- C1: `merkle_root` realizes the spec's Merkle algorithm: hashing the empty
sequence gives `hash ""`, a singleton gives the item's hash, a pair gives
`hash (hash a ++ hash b)`, a triple carries the unpaired last hash forward;
in general the items are hashed individually (`map hash`) and then the layer
is reduced by the pairing pass `merkleStep`, which combines adjacent entries
as `hash (left ++ right)` and carries an unpaired final entry unchanged,
iterated by `merkleLoop` until one hash remains. -/
theorem C1_merkle_root (hash : String → String) :
    merkle_root hash [] = hash "" ∧
    (∀ x, merkle_root hash [x] = hash x) ∧
    (∀ a b, merkle_root hash [a, b] = hash (hash a ++ hash b)) ∧
    (∀ a b c, merkle_root hash [a, b, c] = hash (hash (hash a ++ hash b) ++ hash c)) ∧
    (∀ x xs, merkle_root hash (x :: xs) = merkleLoop hash ((x :: xs).map hash)) ∧
    (∀ a b rest, merkleStep hash (a :: b :: rest) = hash (a ++ b) :: merkleStep hash rest) ∧
    (∀ x, merkleStep hash [x] = [x]) ∧
    (∀ a b rest, merkleLoop hash (a :: b :: rest)
      = merkleLoop hash (merkleStep hash (a :: b :: rest))) ∧
    (∀ x, merkleLoop hash [x] = x) := by
  refine ⟨rfl, ?_, ?_, ?_, ?_, ?_, ?_, ?_, ?_⟩
  · intro x
    simp [merkle_root, merkleLoop]
  · intro a b
    simp [merkle_root, merkleLoop, merkleStep]
  · intro a b c
    simp [merkle_root, merkleLoop, merkleStep]
  · intro x xs
    simp [merkle_root]
  · intro a b rest
    simp [merkleStep]
  · intro x
    simp [merkleStep]
  · intro a b rest
    rw [merkleLoop]
    rw [if_pos (by simp only [List.length_cons]; omega)]
  · intro x
    simp [merkleLoop]

/-! ## Claim C4 -/

/-- C4 (amended): the submitted block hash is the fixed-width 14-digit hex
encoding of the round's timestamp concatenated with the digest of the digest
of `(previous_blockhash ++ header_hash) ++ nonce`: the source computes
`br = sha256(pow_left + nonce)` and then `time_hash(br, timestamp)`, which
hashes `br` a second time — one digest more than the claim states. -/
theorem C4_submitted_blockhash (hash : String → String) (prev hdr nonce : String)
    (ts : Nat) (hts : ts < 16 ^ 14) :
    (submitted_blockhash hash (prev ++ hdr) nonce ts).data
      = (hex_time ts).data ++ (hash (hash ((prev ++ hdr) ++ nonce))).data ∧
    (hex_time ts).length = 14 ∧
    hexVal (hex_time ts) = ts := by
  refine ⟨rfl, ?_, ?_⟩
  · have hlen : (toHex ts).length ≤ 14 := by
      simpa [toHex, string_length_eq] using toHexList_length_le hts (by norm_num)
    exact zfill_length _ hlen
  · rw [show hex_time ts = zfill HEX_TIME_SIZE (toHex ts) from rfl, hexVal_zfill,
      hexVal_toHex]

/-- Witness for C4 with the identity in place of the digest, timestamp 0. -/
theorem C4_submitted_blockhash_witness :
    (0 : Nat) < 16 ^ 14 ∧
    ((submitted_blockhash id ("" ++ "") "" 0).data
        = (hex_time 0).data ++ (id (id (("" ++ "") ++ ""))).data ∧
      (hex_time 0).length = 14 ∧
      hexVal (hex_time 0) = 0) :=
  ⟨by norm_num, C4_submitted_blockhash id "" "" "" 0 (by norm_num)⟩

/-- Counterexample to C4 as stated: with the digest `fun s => "x" ++ s` the
submitted hash `hex_time 0 ++ hash (hash ...)` differs from the claim's
`hex_time 0 ++ hash ...` — the code hashes the digest a second time. -/
theorem C4_submitted_blockhash_counterexample :
    submitted_blockhash (fun s => "x" ++ s) "" "" 0
      ≠ claimed_blockhash (fun s => "x" ++ s) "" "" 0 := by
  decide

/-! ## Support lemmas: lexicographic versus numeric comparison of hex strings -/

theorem hexValList_lt_pow {l : List Char} (h : ∀ c ∈ l, c ∈ hexDigits) :
    hexValList l < 16 ^ l.length := by
  induction l with
  | nil => simp [hexValList]
  | cons c cs ih =>
    have hc : hexDigitVal c < 16 := hexDigitVal_lt_16 (h c (by simp))
    have hcs := ih (fun x hx => h x (by simp [hx]))
    simp only [hexValList, List.length_cons, pow_succ]
    calc hexDigitVal c * 16 ^ cs.length + hexValList cs
        < hexDigitVal c * 16 ^ cs.length + 16 ^ cs.length := by omega
      _ = (hexDigitVal c + 1) * 16 ^ cs.length := by ring
      _ ≤ 16 * 16 ^ cs.length := Nat.mul_le_mul_right _ (by omega)
      _ = 16 ^ cs.length * 16 := by ring

theorem hexDigit_lt_iff : ∀ c ∈ hexDigits, ∀ d ∈ hexDigits,
    (c < d ↔ hexDigitVal c < hexDigitVal d) := by decide

theorem hexValList_lt_of_head {x y : Char} {xs ys : List Char}
    (hxs : ∀ c ∈ xs, c ∈ hexDigits) (hlen : xs.length = ys.length)
    (hxy : hexDigitVal x < hexDigitVal y) :
    hexValList (x :: xs) < hexValList (y :: ys) := by
  simp only [hexValList, hlen]
  have h1 : hexValList xs < 16 ^ ys.length := hlen ▸ hexValList_lt_pow hxs
  calc hexDigitVal x * 16 ^ ys.length + hexValList xs
      < hexDigitVal x * 16 ^ ys.length + 16 ^ ys.length := by omega
    _ = (hexDigitVal x + 1) * 16 ^ ys.length := by ring
    _ ≤ hexDigitVal y * 16 ^ ys.length := Nat.mul_le_mul_right _ (by omega)
    _ ≤ hexDigitVal y * 16 ^ ys.length + hexValList ys := Nat.le_add_right _ _

theorem hexLe_iff : ∀ xs ys : List Char, (∀ c ∈ xs, c ∈ hexDigits) →
    (∀ c ∈ ys, c ∈ hexDigits) → xs.length = ys.length →
    (pyLe xs ys = true ↔ hexValList xs ≤ hexValList ys)
  | [], [], _, _, _ => by simp [pyLe, hexValList]
  | [], _ :: _, _, _, h => by simp at h
  | _ :: _, [], _, _, h => by simp at h
  | x :: xs, y :: ys, hx, hy, h => by
    have hlen : xs.length = ys.length := by simpa using h
    have hxm : x ∈ hexDigits := hx x (by simp)
    have hym : y ∈ hexDigits := hy y (by simp)
    have hxs : ∀ c ∈ xs, c ∈ hexDigits := fun c hc => hx c (by simp [hc])
    have hys : ∀ c ∈ ys, c ∈ hexDigits := fun c hc => hy c (by simp [hc])
    by_cases hxy : x = y
    · subst hxy
      simp only [pyLe, eq_self_iff_true, if_true]
      rw [hexLe_iff xs ys hxs hys hlen]
      simp only [hexValList, hlen]
      omega
    · simp only [pyLe, if_neg hxy, decide_eq_true_eq]
      constructor
      · intro hlt
        have hv : hexDigitVal x < hexDigitVal y := (hexDigit_lt_iff x hxm y hym).mp hlt
        exact le_of_lt (hexValList_lt_of_head hxs hlen hv)
      · intro hle
        by_contra hnlt
        have hyx : y < x := by
          rcases lt_trichotomy x y with h1 | h1 | h1
          · exact absurd h1 hnlt
          · exact absurd h1 hxy
          · exact h1
        have hv : hexDigitVal y < hexDigitVal x := (hexDigit_lt_iff y hym x hxm).mp hyx
        have hlt2 := hexValList_lt_of_head hys hlen.symm hv
        omega

/-! ## Claim C10 -/

/-- C10: for lowercase hexadecimal strings of equal length 64, Python's
lexicographic string `<=` (modelled by `pyLe`) agrees with numeric comparison
of the unsigned big-integer values, so the code's digest-versus-target string
comparisons decide exactly the numeric validity condition. -/
theorem C10_string_le_iff_numeric (s t : String)
    (hs : ∀ c ∈ s.data, c ∈ hexDigits) (ht : ∀ c ∈ t.data, c ∈ hexDigits)
    (hls : s.length = 64) (hlt : t.length = 64) :
    (pyLe s.data t.data = true ↔ hexVal s ≤ hexVal t) := by
  rw [string_length_eq] at hls hlt
  exact hexLe_iff s.data t.data hs ht (by omega)

/-- Witness for C10 on the 64-digit strings of all `0`s and all `f`s. -/
theorem C10_string_le_iff_numeric_witness :
    (∀ c ∈ (String.mk (List.replicate 64 '0')).data, c ∈ hexDigits) ∧
    (∀ c ∈ (String.mk (List.replicate 64 'f')).data, c ∈ hexDigits) ∧
    (String.mk (List.replicate 64 '0')).length = 64 ∧
    (String.mk (List.replicate 64 'f')).length = 64 ∧
    (pyLe (String.mk (List.replicate 64 '0')).data
        (String.mk (List.replicate 64 'f')).data = true ↔
      hexVal (String.mk (List.replicate 64 '0'))
        ≤ hexVal (String.mk (List.replicate 64 'f'))) :=
  ⟨by decide, by decide, by decide, by decide,
    C10_string_le_iff_numeric _ _ (by decide) (by decide) (by decide) (by decide)⟩

/-! ## Claim C5 -/

/-- C5 (amended): a found share always bumps the share counter by one; the
block counter is bumped exactly when the raw digest
`br = sha256(pow_left + nonce)` is string-`<=` the block target
`hash_limit(difficulty)` — equivalently, for a 64-digit lowercase-hex digest,
when its numeric value is at most the target's.  It is the raw digest that is
classified, not the time-prefixed block hash the claim names. -/
theorem C5_handle_found (difficulty : Int) (br : String) (c : Counters)
    (hhex : ∀ ch ∈ br.data, ch ∈ hexDigits) (hlen : br.length = 64) :
    (handle_found difficulty br c).shares = c.shares + 1 ∧
    ((handle_found difficulty br c).blocks = c.blocks + 1 ↔
      pyLe br.data (hash_limit difficulty).data = true) ∧
    ((handle_found difficulty br c).blocks = c.blocks + 1 ↔
      hexVal br ≤ hexVal (hash_limit difficulty)) ∧
    ((handle_found difficulty br c).blocks = c.blocks ↔
      ¬ hexVal br ≤ hexVal (hash_limit difficulty)) := by
  have hiff : pyLe br.data (hash_limit difficulty).data = true ↔
      hexVal br ≤ hexVal (hash_limit difficulty) := by
    rw [string_length_eq] at hlen
    have h64 : (hash_limit difficulty).data.length = 64 := by
      have := hash_limit_length difficulty
      rwa [string_length_eq] at this
    exact hexLe_iff _ _ hhex (hash_limit_mem difficulty) (by omega)
  refine ⟨rfl, ?_, ?_, ?_⟩ <;>
    · show (if pyLe br.data (hash_limit difficulty).data then c.blocks + 1 else c.blocks)
          = _ ↔ _
      by_cases hP : pyLe br.data (hash_limit difficulty).data = true <;>
        simp [hP, hiff.symm]

/-- Witness for C5: difficulty 1, the all-zero digest, zero counters. -/
theorem C5_handle_found_witness :
    (∀ ch ∈ (String.mk (List.replicate 64 '0')).data, ch ∈ hexDigits) ∧
    (String.mk (List.replicate 64 '0')).length = 64 ∧
    ((handle_found 1 (String.mk (List.replicate 64 '0')) ⟨0, 0⟩).shares = 0 + 1 ∧
      ((handle_found 1 (String.mk (List.replicate 64 '0')) ⟨0, 0⟩).blocks = 0 + 1 ↔
        pyLe (String.mk (List.replicate 64 '0')).data (hash_limit 1).data = true) ∧
      ((handle_found 1 (String.mk (List.replicate 64 '0')) ⟨0, 0⟩).blocks = 0 + 1 ↔
        hexVal (String.mk (List.replicate 64 '0')) ≤ hexVal (hash_limit 1)) ∧
      ((handle_found 1 (String.mk (List.replicate 64 '0')) ⟨0, 0⟩).blocks = 0 ↔
        ¬ hexVal (String.mk (List.replicate 64 '0')) ≤ hexVal (hash_limit 1))) :=
  ⟨by decide, by decide,
    C5_handle_found 1 (String.mk (List.replicate 64 '0')) ⟨0, 0⟩ (by decide) (by decide)⟩

/-- Counterexample to C5 as stated: with the digest constantly the all-zero
64-digit string and timestamp 1, the code records a block (the raw digest is
below the target), yet the time-prefixed block hash
`time_hash br 1 = hex_time 1 ++ hash br` is numerically far above the block
target, so "recorded as a block iff the time-prefixed block hash meets the
block target" fails. -/
theorem C5_handle_found_counterexample :
    (handle_found 1 (String.mk (List.replicate 64 '0')) ⟨0, 0⟩).blocks = 1 ∧
    ¬ hexVal (time_hash (fun _ => String.mk (List.replicate 64 '0'))
        (String.mk (List.replicate 64 '0')) 1) ≤ hexVal (hash_limit 1) := by
  decide

/-! ## Support lemmas: reconnect backoff values -/

theorem delays_1 : delays 1 = 7.5 := by
  rw [show delays 1 = next_delay (delays 0) from rfl, show delays 0 = (5 : ℚ) from rfl,
    next_delay, min_eq_left (by norm_num)]
  norm_num

theorem delays_2 : delays 2 = 11.25 := by
  rw [show delays 2 = next_delay (delays 1) from rfl, delays_1,
    next_delay, min_eq_left (by norm_num)]
  norm_num

theorem delays_3 : delays 3 = 16.875 := by
  rw [show delays 3 = next_delay (delays 2) from rfl, delays_2,
    next_delay, min_eq_left (by norm_num)]
  norm_num

theorem delays_4 : delays 4 = 25.3125 := by
  rw [show delays 4 = next_delay (delays 3) from rfl, delays_3,
    next_delay, min_eq_left (by norm_num)]
  norm_num

theorem delays_5 : delays 5 = 37.96875 := by
  rw [show delays 5 = next_delay (delays 4) from rfl, delays_4,
    next_delay, min_eq_left (by norm_num)]
  norm_num

theorem delays_6 : delays 6 = 56.953125 := by
  rw [show delays 6 = next_delay (delays 5) from rfl, delays_5,
    next_delay, min_eq_left (by norm_num)]
  norm_num

theorem delays_7 : delays 7 = 60 := by
  rw [show delays 7 = next_delay (delays 6) from rfl, delays_6,
    next_delay, min_eq_right (by norm_num)]

theorem delays_of_ge_7 {n : Nat} (h : 7 ≤ n) : delays n = 60 := by
  induction n, h using Nat.le_induction with
  | base => exact delays_7
  | succ m hm ih =>
    rw [show delays (m + 1) = next_delay (delays m) from rfl, ih,
      next_delay, min_eq_right (by norm_num)]

/-! ## Claim C6 -/

/-- C6 (amended): consecutive failed connects, starting from the base delay
5 with cap 60, wait the exact delays 5, 7.5, 11.25, 16.875, 25.3125,
37.96875, 56.953125, 60, 60, … (the claim's 16.9, 25.3, 38.0, 57.0 are
one-decimal roundings of these values); the update rule is
`delay := min(delay * 1.5, 60)` and any successful connect resets the next
delay to 5. -/
theorem C6_backoff (n : Nat) (h : 7 ≤ n) :
    delays 0 = 5 ∧ delays 1 = 7.5 ∧ delays 2 = 11.25 ∧ delays 3 = 16.875 ∧
    delays 4 = 25.3125 ∧ delays 5 = 37.96875 ∧ delays 6 = 56.953125 ∧
    delays n = 60 ∧
    (∀ d : ℚ, step_delay d .success = 5) ∧
    (∀ d : ℚ, step_delay d .failure = min (d * 1.5) 60) :=
  ⟨rfl, delays_1, delays_2, delays_3, delays_4, delays_5, delays_6,
    delays_of_ge_7 h, fun _ => rfl, fun _ => rfl⟩

/-- Witness for C6 at the ninth failure. -/
theorem C6_backoff_witness : (7 : Nat) ≤ 9 ∧ delays 9 = 60 :=
  ⟨by norm_num, (C6_backoff 9 (by norm_num)).2.2.2.2.2.2.2.1⟩

/-- Counterexample to C6 as stated: the fourth delay of the failure streak
is exactly 16.875 (all values reached by `min(d * 1.5, 60)` from 5 are
dyadic, so binary64 computes them exactly), not the claimed 16.9. -/
theorem C6_backoff_counterexample : delays 3 = 16.875 ∧ delays 3 ≠ 16.9 := by
  refine ⟨delays_3, ?_⟩
  rw [delays_3]
  norm_num

/-! ## Support lemmas: the job store -/

theorem run_replaces_append_last {α : Type} (init : Option α) (xs : List α) (x : α) :
    run_replaces init (xs ++ [x]) = some x := by
  simp [run_replaces, List.foldl_append]

theorem run_replaces_getLast {α : Type} (init : Option α) (l : List α) (h : l ≠ []) :
    run_replaces init l = some (l.getLast h) := by
  conv_lhs => rw [← List.dropLast_concat_getLast h]
  exact run_replaces_append_last init _ _

/-! ## Claim C7 -/

/-- C7: job-store snapshots are monotone with respect to `replace`: after a
trace that performs `replace J2` and then the replaces in `mid`, `get_job`
returns the last job published from `J2 :: mid` — never a job `J1` that is
not republished at or after `J2` — and the snapshot is `none` exactly when
no job was ever published.  Each Python critical section is lock-guarded and
free of blocking calls, so a trace is the lock order of the `replace`
calls; the `.copy()` handed to the reader is modelled by value semantics. -/
theorem C7_job_store (α : Type) (init : Option α) (pre mid : List α) (J1 J2 : α)
    (h : J1 ∉ J2 :: mid) :
    get_job (run_replaces init (pre ++ J2 :: mid))
        = some ((J2 :: mid).getLast (List.cons_ne_nil J2 mid)) ∧
    get_job (run_replaces init (pre ++ J2 :: mid)) ≠ some J1 ∧
    (∀ l : List α, get_job (run_replaces (none : Option α) l) = none ↔ l = []) := by
  have hlast : get_job (run_replaces init (pre ++ J2 :: mid))
      = some ((J2 :: mid).getLast (List.cons_ne_nil J2 mid)) := by
    show run_replaces init (pre ++ J2 :: mid) = _
    rw [run_replaces_getLast init _ (by simp)]
    rw [List.getLast_append_of_ne_nil (List.cons_ne_nil J2 mid)]
  refine ⟨hlast, ?_, ?_⟩
  · rw [hlast]
    intro hcontra
    have hmem : (J2 :: mid).getLast (List.cons_ne_nil J2 mid) ∈ J2 :: mid :=
      List.getLast_mem _
    rw [Option.some.injEq] at hcontra
    exact h (hcontra ▸ hmem)
  · intro l
    cases l with
    | nil => simp [run_replaces, get_job]
    | cons a t =>
      constructor
      · intro hcontra
        rw [show get_job (run_replaces (none : Option α) (a :: t))
            = run_replaces (none : Option α) (a :: t) from rfl,
          run_replaces_getLast (none : Option α) (a :: t) (List.cons_ne_nil a t)] at hcontra
        exact absurd hcontra (by simp)
      · intro hcontra
        exact absurd hcontra (List.cons_ne_nil a t)

/-- Witness for C7: trace `[1]` then `replace 2`, `replace 3`; the snapshot
is `3`, never the overwritten `1`. -/
theorem C7_job_store_witness :
    (1 : Nat) ∉ [2, 3] ∧
    (get_job (run_replaces (none : Option Nat) ([1] ++ [2, 3]))
        = some ([2, 3].getLast (List.cons_ne_nil 2 [3])) ∧
      get_job (run_replaces (none : Option Nat) ([1] ++ [2, 3])) ≠ some 1 ∧
      (∀ l : List Nat, get_job (run_replaces (none : Option Nat) l) = none ↔ l = [])) :=
  ⟨by decide, C7_job_store Nat none [1] [3] 1 2 (by decide)⟩

/-! ## Support lemmas: the frame codec -/

theorem recv_drain_aux_ok {μ : Type} (parse : List Char → Except ParseErr μ)
    (hno : ∀ l, parse l ≠ .error .unicode) :
    ∀ (buf cur : List Char), '\n' ∉ cur →
      ∃ ms lo, recv_drain_aux parse cur buf = .ok (ms, lo) ∧ '\n' ∉ lo
  | [], cur, hc => ⟨[], cur.reverse, rfl, by simpa using hc⟩
  | c :: cs, cur, hc => by
    by_cases hnl : c = '\n'
    · subst hnl
      by_cases hb : isBlank cur.reverse = true
      · obtain ⟨ms, lo, hrec, hlo⟩ := recv_drain_aux_ok parse hno cs [] (by simp)
        refine ⟨ms, lo, ?_, hlo⟩
        simp only [recv_drain_aux, eq_self_iff_true, if_true, if_pos hb]
        exact hrec
      · cases hp : parse cur.reverse with
        | ok m =>
          obtain ⟨ms, lo, hrec, hlo⟩ := recv_drain_aux_ok parse hno cs [] (by simp)
          refine ⟨m :: ms, lo, ?_, hlo⟩
          simp only [recv_drain_aux, eq_self_iff_true, if_true, if_neg hb, hp, hrec]
        | error e =>
          cases e with
          | unicode => exact absurd hp (hno _)
          | jsonDecode =>
            obtain ⟨ms, lo, hrec, hlo⟩ := recv_drain_aux_ok parse hno cs [] (by simp)
            refine ⟨ms, lo, ?_, hlo⟩
            simp only [recv_drain_aux, eq_self_iff_true, if_true, if_neg hb, hp]
            exact hrec
    · have hc' : '\n' ∉ c :: cur := by
        intro hm
        rcases List.mem_cons.mp hm with h1 | h1
        · exact hnl h1.symm
        · exact hc h1
      obtain ⟨ms, lo, hrec, hlo⟩ := recv_drain_aux_ok parse hno cs (c :: cur) hc'
      refine ⟨ms, lo, ?_, hlo⟩
      simp only [recv_drain_aux, if_neg hnl]
      exact hrec

theorem recv_drain_aux_skip {μ : Type} (parse : List Char → Except ParseErr μ) :
    ∀ (pre b2 cur : List Char), '\n' ∉ pre →
      recv_drain_aux parse cur (pre ++ b2)
        = recv_drain_aux parse (pre.reverse ++ cur) b2
  | [], _, _, _ => by simp
  | c :: pre, b2, cur, hpre => by
    have hcne : ¬ (c = '\n') := fun hh => hpre (by simp [hh])
    have hpre' : '\n' ∉ pre := fun hh => hpre (by simp [hh])
    rw [List.cons_append]
    simp only [recv_drain_aux, if_neg hcne]
    rw [recv_drain_aux_skip parse pre b2 (c :: cur) hpre']
    have harr : pre.reverse ++ (c :: cur) = (c :: pre).reverse ++ cur := by simp
    rw [harr]

theorem recv_drain_aux_append {μ : Type} (parse : List Char → Except ParseErr μ) :
    ∀ (b1 cur : List Char) (ms1 : List μ) (lo1 b2 : List Char)
      (ms2 : List μ) (lo2 : List Char), '\n' ∉ cur →
      recv_drain_aux parse cur b1 = .ok (ms1, lo1) →
      recv_drain_aux parse [] (lo1 ++ b2) = .ok (ms2, lo2) →
      recv_drain_aux parse cur (b1 ++ b2) = .ok (ms1 ++ ms2, lo2)
  | [], cur, ms1, lo1, b2, ms2, lo2, hcur, h1, h2 => by
    rw [show recv_drain_aux parse cur ([] : List Char) = .ok ([], cur.reverse) from rfl] at h1
    injection h1 with h1
    injection h1 with ha hb
    subst ha
    subst hb
    rw [List.nil_append, List.nil_append]
    rw [recv_drain_aux_skip parse cur.reverse b2 [] (by simpa using hcur)] at h2
    simpa using h2
  | c :: cs, cur, ms1, lo1, b2, ms2, lo2, hcur, h1, h2 => by
    rw [List.cons_append]
    by_cases hnl : c = '\n'
    · subst hnl
      by_cases hb : isBlank cur.reverse = true
      · simp only [recv_drain_aux, eq_self_iff_true, if_true, if_pos hb] at h1 ⊢
        exact recv_drain_aux_append parse cs [] ms1 lo1 b2 ms2 lo2 (by simp) h1 h2
      · cases hp : parse cur.reverse with
        | ok m =>
          simp only [recv_drain_aux, eq_self_iff_true, if_true, if_neg hb, hp] at h1 ⊢
          cases hrec : recv_drain_aux parse ([] : List Char) cs with
          | ok p =>
            obtain ⟨msr, lor⟩ := p
            rw [hrec] at h1
            simp only [Except.ok.injEq, Prod.mk.injEq] at h1
            obtain ⟨hms, hlo⟩ := h1
            subst hms
            subst hlo
            have hih := recv_drain_aux_append parse cs [] msr lor b2 ms2 lo2 (by simp) hrec h2
            rw [hih]
            simp
          | error e =>
            rw [hrec] at h1
            simp at h1
        | error e =>
          cases e with
          | unicode =>
            simp only [recv_drain_aux, eq_self_iff_true, if_true, if_neg hb, hp] at h1
            simp at h1
          | jsonDecode =>
            simp only [recv_drain_aux, eq_self_iff_true, if_true, if_neg hb, hp] at h1 ⊢
            exact recv_drain_aux_append parse cs [] ms1 lo1 b2 ms2 lo2 (by simp) h1 h2
    · have hc' : '\n' ∉ c :: cur := by
        intro hm
        rcases List.mem_cons.mp hm with hx | hx
        · exact hnl hx.symm
        · exact hcur hx
      simp only [recv_drain_aux, if_neg hnl] at h1 ⊢
      exact recv_drain_aux_append parse cs (c :: cur) ms1 lo1 b2 ms2 lo2 hc' h1 h2

theorem recv_drain_line {μ : Type} (parse : List Char → Except ParseErr μ)
    (line rest : List Char) (hn : '\n' ∉ line) :
    recv_drain parse (line ++ '\n' :: rest)
      = if isBlank line then recv_drain parse rest
        else
          match parse line with
          | .ok m =>
            match recv_drain parse rest with
            | .ok (ms, lo) => .ok (m :: ms, lo)
            | .error e => .error e
          | .error .jsonDecode => recv_drain parse rest
          | .error .unicode => .error () := by
  show recv_drain_aux parse [] (line ++ '\n' :: rest) = _
  rw [recv_drain_aux_skip parse line ('\n' :: rest) [] hn]
  simp only [recv_drain_aux, eq_self_iff_true, if_true, List.append_nil,
    List.reverse_reverse]
  rfl

/-! ## Claim C8 -/

/-- C8 (amended): provided every line decodes as text (`parse` never reports
a `unicode` failure), the frame codec extracts exactly the complete
newline-terminated messages and never errors, the retained leftover is the
trailing partial line (it contains no newline and is completed by later
reads: draining `b1 ++ b2` yields the messages of `b1` followed by those of
`leftover(b1) ++ b2`), a non-blank line that fails JSON parsing is dropped
and parsing continues with the rest, and a parsed line contributes its
message in order.  The decodability proviso is forced on the claim as
stated: `except json.JSONDecodeError` does not catch the
`UnicodeDecodeError` of `line.decode()`, so a line of invalid UTF-8 bytes
aborts the drain. -/
theorem C8_recv_lines {μ : Type} (parse : List Char → Except ParseErr μ)
    (hno : ∀ l, parse l ≠ .error .unicode) :
    (∀ buf, ∃ ms lo, recv_drain parse buf = .ok (ms, lo) ∧ '\n' ∉ lo) ∧
    (∀ b1 b2 ms1 lo1 ms2 lo2,
      recv_drain parse b1 = .ok (ms1, lo1) →
      recv_drain parse (lo1 ++ b2) = .ok (ms2, lo2) →
      recv_drain parse (b1 ++ b2) = .ok (ms1 ++ ms2, lo2)) ∧
    (∀ line rest, '\n' ∉ line → isBlank line = false →
      parse line = .error .jsonDecode →
      recv_drain parse (line ++ '\n' :: rest) = recv_drain parse rest) ∧
    (∀ line rest m, '\n' ∉ line → isBlank line = false → parse line = .ok m →
      recv_drain parse (line ++ '\n' :: rest)
        = Except.map (fun p => (m :: p.1, p.2)) (recv_drain parse rest)) := by
  refine ⟨?_, ?_, ?_, ?_⟩
  · intro buf
    exact recv_drain_aux_ok parse hno buf [] (by simp)
  · intro b1 b2 ms1 lo1 ms2 lo2 h1 h2
    exact recv_drain_aux_append parse b1 [] ms1 lo1 b2 ms2 lo2 (by simp) h1 h2
  · intro line rest hn hb hp
    rw [recv_drain_line parse line rest hn, if_neg (by simp [hb]), hp]
  · intro line rest m hn hb hp
    rw [recv_drain_line parse line rest hn, if_neg (by simp [hb]), hp]
    cases hrec : recv_drain parse rest with
    | ok p =>
      obtain ⟨ms, lo⟩ := p
      simp [Except.map]
    | error e =>
      simp [Except.map]

/-- Witness for C8: a parser that rejects every line as malformed JSON still
drains the buffer `"a\nb"` without error, leaving the partial `"b"`. -/
theorem C8_recv_lines_witness :
    ∃ ms lo, recv_drain
        (fun _ => (Except.error ParseErr.jsonDecode : Except ParseErr Unit))
        ['a', '\n', 'b'] = .ok (ms, lo) ∧ '\n' ∉ lo :=
  (C8_recv_lines (fun _ => (Except.error ParseErr.jsonDecode : Except ParseErr Unit))
    (fun _ h => ParseErr.noConfusion (Except.error.inj h))).1 ['a', '\n', 'b']

/-- Counterexample to C8 as stated: a line whose bytes are not valid UTF-8
(the parse reports a `unicode` failure, as `b'\xff'.decode()` does) raises
out of the drain — `except json.JSONDecodeError` does not catch
`UnicodeDecodeError` — so this malformed line aborts the processing instead
of being dropped. -/
theorem C8_recv_lines_counterexample :
    recv_drain (fun _ => (Except.error ParseErr.unicode : Except ParseErr Unit))
      ['\xff', '\n'] = .error () := rfl

/-! ## Claim C9 -/

/-- C9 (amended): every accelerator failure — connect failure, send failure,
timeout, socket error, a stream closed before a complete line, or a response
line that decodes as text but is not valid JSON — makes `gpu_mine_round`
return `None` instead of raising; provided the response line decodes as text
(`parse` never reports a `unicode` failure) the call never raises at all;
and on the `None` outcome the mining loop records a fixed 2-second sleep and
leaves the job store untouched.  The decodability proviso is forced on the
claim as stated: `line.decode()`'s `UnicodeDecodeError` is not in the
`except` clause, so a response of invalid UTF-8 bytes raises. -/
theorem C9_gpu_unavailable {α μ : Type} (parse : List Char → Except ParseErr μ)
    (hno : ∀ l, parse l ≠ .error .unicode) :
    gpu_mine_round_model parse .connectFail = .ok none ∧
    gpu_mine_round_model parse .sendFail = .ok none ∧
    gpu_mine_round_model parse .timeout = .ok none ∧
    gpu_mine_round_model parse .sockErr = .ok none ∧
    gpu_mine_round_model parse .closed = .ok none ∧
    (∀ bs, splitNL bs = none → gpu_mine_round_model parse (.response bs) = .ok none) ∧
    (∀ bs line rest, splitNL bs = some (line, rest) →
      parse line = .error .jsonDecode →
      gpu_mine_round_model parse (.response bs) = .ok none) ∧
    (∀ o, ∃ r, gpu_mine_round_model parse o = .ok r) ∧
    (∀ s : MineLoopState α, (on_unavailable s).store = s.store ∧
      (on_unavailable s).sleeps = 2 :: s.sleeps) := by
  refine ⟨rfl, rfl, rfl, rfl, rfl, ?_, ?_, ?_, fun s => ⟨rfl, rfl⟩⟩
  · intro bs hsplit
    simp [gpu_mine_round_model, hsplit]
  · intro bs line rest hsplit hp
    simp [gpu_mine_round_model, hsplit, hp]
  · intro o
    cases o with
    | connectFail => exact ⟨none, rfl⟩
    | sendFail => exact ⟨none, rfl⟩
    | timeout => exact ⟨none, rfl⟩
    | sockErr => exact ⟨none, rfl⟩
    | closed => exact ⟨none, rfl⟩
    | response bs =>
      cases hsplit : splitNL bs with
      | none => exact ⟨none, by simp [gpu_mine_round_model, hsplit]⟩
      | some p =>
        obtain ⟨line, rest⟩ := p
        cases hp : parse line with
        | ok m => exact ⟨some m, by simp [gpu_mine_round_model, hsplit, hp]⟩
        | error e =>
          cases e with
          | unicode => exact absurd hp (hno _)
          | jsonDecode => exact ⟨none, by simp [gpu_mine_round_model, hsplit, hp]⟩

/-- Witness for C9: a parser that rejects everything as malformed JSON; the
accelerator client returns `None` on a connect failure, and the unavailable
branch sleeps 2 seconds leaving the stored job `some 7` in place. -/
theorem C9_gpu_unavailable_witness :
    gpu_mine_round_model
        (fun _ => (Except.error ParseErr.jsonDecode : Except ParseErr Unit))
        IPCOutcome.connectFail = .ok none ∧
    (on_unavailable (⟨some 7, []⟩ : MineLoopState Nat)).store = some 7 ∧
    (on_unavailable (⟨some 7, []⟩ : MineLoopState Nat)).sleeps = [2] :=
  have h := C9_gpu_unavailable (α := Nat)
    (fun _ => (Except.error ParseErr.jsonDecode : Except ParseErr Unit))
    (fun _ hh => ParseErr.noConfusion (Except.error.inj hh))
  ⟨h.1, (h.2.2.2.2.2.2.2.2 ⟨some 7, []⟩).1, (h.2.2.2.2.2.2.2.2 ⟨some 7, []⟩).2⟩

/-- Counterexample to C9 as stated: a response line of invalid UTF-8 bytes
(the parse reports a `unicode` failure, as `b'\xff'.decode()` does) makes
`gpu_mine_round` raise instead of returning `None`:
`except (socket.timeout, socket.error, json.JSONDecodeError, OSError)` does
not catch `UnicodeDecodeError`. -/
theorem C9_gpu_unavailable_counterexample :
    gpu_mine_round_model (fun _ => (Except.error ParseErr.unicode : Except ParseErr Unit))
      (.response ['\xff', '\n']) = .error () := rfl

end PoolClient
